import Mathlib

/-!
Verification of the tweet-lifecycle store and the rate-limited, batched
Twitter client of `twitter_delete`.

The Rust sources are shallowly embedded:

* `MTweet` mirrors `models.rs::Tweet` (the database row type).
* `add_tweets`, `checked`, `deleted`, `existing`, `created_before`,
  `count_tweets` mirror the functions of `db.rs`; the SQLite store is a
  `List MTweet`, an `INSERT OR IGNORE` is a sequential insert that skips
  rows whose primary key `id_str` is already present, and an
  `UPDATE ... WHERE id_str = ?` touches every matching row and reports the
  number of rows it touched (SQLite counts a row even when the stored
  value is unchanged).
* `unchecked_tweets` and `to_process` mirror the two diesel queries of
  `main.rs` (the Import-arm and Delete-arm selections), with
  `ORDER BY id_str ASC` modelled by a stable merge sort under `String` order.
* `encode`, `auth_params`, `sig_params`, `param_string` mirror the
  parameter-string construction of `twitter.rs::create_auth`, with the
  random nonce and the current timestamp passed in explicitly.
* `lookup_tweets` mirrors the chunking loop of `twitter.rs::lookup_tweets`,
  returning the comma-joined id parameter of each request that is sent.
* `rate_limit` mirrors `twitter.rs::rate_limit`: machine arithmetic of the
  sleep computation (`u64 as i64`, `i64::checked_sub`, `i64 as u64`) is
  made explicit, and the network is a script of responses consumed one
  attempt at a time.
-/

/-- Row type of the `tweets` table (`models.rs::Tweet`). `retweets` and
`likes` are `i32` columns, `created_at` is an `i64` unix timestamp. -/
structure MTweet where
  id_str : String
  retweets : Int
  likes : Int
  created_at : Int
  deleted : Bool
  checked : Bool
  account_id : String
deriving DecidableEq, Repr

/-- Constructor used at import time (`models.rs::Tweet::new`): fresh rows
always start with `deleted := false` and `checked := false`. -/
def MTweet.new (id_str : String) (retweets likes : Int) (created_at : Int)
    (account_id : String) : MTweet :=
  { id_str := id_str, retweets := retweets, likes := likes,
    created_at := created_at, deleted := false, checked := false,
    account_id := account_id }

/-- Sequential semantics of `db.rs::add_tweets`
(`INSERT OR IGNORE INTO tweets VALUES ...`): each value row is appended
unless a row with the same `id_str` primary key is already present; the
returned number counts the rows actually inserted. -/
def add_tweets : List MTweet → List MTweet → List MTweet × Nat
  | s, [] => (s, 0)
  | s, t :: ts =>
    if s.any (fun u => u.id_str == t.id_str) then add_tweets s ts
    else
      let r := add_tweets (s ++ [t]) ts
      (r.1, r.2 + 1)

/-- Mirrors `db.rs::count_tweets` (`SELECT COUNT(*) FROM tweets`). -/
def count_tweets (s : List MTweet) : Nat := s.length

/-- One `UPDATE tweets SET checked = 1 WHERE id_str = ?` statement. -/
def update_set_checked (s : List MTweet) (id : String) : List MTweet :=
  s.map fun t => if t.id_str == id then { t with checked := true } else t

/-- One `UPDATE tweets SET deleted = 1 WHERE id_str = ?` statement. -/
def update_set_deleted (s : List MTweet) (id : String) : List MTweet :=
  s.map fun t => if t.id_str == id then { t with deleted := true } else t

/-- Number of rows matched by `WHERE id_str = ?`; what a diesel
`execute` of such an `UPDATE` reports for one statement. -/
def find_count (s : List MTweet) (id : String) : Nat :=
  (s.filter fun t => t.id_str == id).length

/-- Mirrors `db.rs::checked`: one update per supplied id, inside a single
transaction, summing the per-statement row counts. -/
def checked : List MTweet → List String → List MTweet × Nat
  | s, [] => (s, 0)
  | s, id :: ids =>
    let r := checked (update_set_checked s id) ids
    (r.1, find_count s id + r.2)

/-- Mirrors `db.rs::deleted`: one update per supplied id, inside a single
transaction, summing the per-statement row counts. -/
def deleted : List MTweet → List String → List MTweet × Nat
  | s, [] => (s, 0)
  | s, id :: ids =>
    let r := deleted (update_set_deleted s id) ids
    (r.1, find_count s id + r.2)

/-- Mirrors `db.rs::existing`: `deleted.eq(false).and(checked.eq(false))`. -/
def existing (t : MTweet) : Bool :=
  (t.deleted == false) && (t.checked == false)

/-- Mirrors `db.rs::created_before`: `created_at.lt(utc)`. -/
def created_before (utc : Int) (t : MTweet) : Bool :=
  decide (t.created_at < utc)

/-- Byte-order (lexicographic-by-codepoint) comparison of character
lists; on UTF-8 data this is the order of Rust's `String::cmp` and of
SQLite's BINARY collation. -/
def charListLe : List Char → List Char → Bool
  | [], _ => true
  | _ :: _, [] => false
  | a :: as, b :: bs =>
    decide (a.toNat < b.toNat) ||
      (decide (a.toNat = b.toNat) && charListLe as bs)

/-- Byte order on strings (`String::cmp` / SQLite BINARY collation). -/
def str_le (a b : String) : Bool := charListLe a.data b.data

/-- The tweets table in ascending primary-key order
(`ORDER BY id_str ASC`, SQLite binary collation on the id text). Rust's
`sort_by` and SQL's ORDER BY are modelled by a stable merge sort. -/
def sort_by_id (s : List MTweet) : List MTweet :=
  s.mergeSort fun a b => str_le a.id_str b.id_str

/-- The `unchecked_tweets` query of the Import arm (`main.rs`):
`tweets.order(id_str.asc()).filter(existing()).select(id_str)`. -/
def unchecked_tweets (s : List MTweet) : List String :=
  ((sort_by_id s).filter existing).map (·.id_str)

/-- The `to_process` query of the Delete arm (`main.rs`): ascending id
order, filtered by `created_before(off)`, `deleted = false`,
`id_str` not in `exclude`, `likes ≤ unless_likes`,
`retweets ≤ unless_retweets`. The two bounds are the `i32` values the
query receives. -/
def to_process (s : List MTweet) (off : Int) (exclude : List String)
    (unless_likes unless_retweets : Int) : List String :=
  ((sort_by_id s).filter fun t =>
      created_before off t && (t.deleted == false) &&
        !(exclude.contains t.id_str) &&
        decide (t.likes ≤ unless_likes) &&
        decide (t.retweets ≤ unless_retweets)).map (·.id_str)

/-- The data-model invariant claimed by the spec: a row marked `deleted`
has been marked `checked`. -/
def checked_before_deleted (s : List MTweet) : Prop :=
  ∀ t ∈ s, t.deleted = true → t.checked = true

instance (s : List MTweet) : Decidable (checked_before_deleted s) := by
  unfold checked_before_deleted
  infer_instance

/-- Store states reachable through the program's store-mutating
operations: an empty database after migration, the Import-arm bulk insert
of freshly constructed rows, the Import-arm lookup callback (mark a batch
of looked-up ids `checked`, then mark the subset reported absent
`deleted`, in one transaction), and the Delete-arm per-item callback
(mark a single processed id `deleted`, with no `checked` update). -/
inductive Reachable : List MTweet → Prop where
  | init : Reachable []
  | importStep (s : List MTweet) (args : List (String × Int × Int × Int × String)) :
      Reachable s →
      Reachable (add_tweets s
        (args.map fun a => MTweet.new a.1 a.2.1 a.2.2.1 a.2.2.2.1 a.2.2.2.2)).1
  | lookupChunkStep (s : List MTweet) (keys gone : List String) :
      (∀ i ∈ gone, i ∈ keys) → Reachable s →
      Reachable (deleted (checked s keys).1 gone).1
  | deleteResultStep (s : List MTweet) (id : String) :
      Reachable s → Reachable (deleted s [id]).1

/-- Store states reachable when the Delete-arm per-item callback is left
out: only import and the Import-arm lookup callback mutate the store. -/
inductive SafeReachable : List MTweet → Prop where
  | init : SafeReachable []
  | importStep (s : List MTweet) (args : List (String × Int × Int × Int × String)) :
      SafeReachable s →
      SafeReachable (add_tweets s
        (args.map fun a => MTweet.new a.1 a.2.1 a.2.2.1 a.2.2.2.1 a.2.2.2.2)).1
  | lookupChunkStep (s : List MTweet) (keys gone : List String) :
      (∀ i ∈ gone, i ∈ keys) → SafeReachable s →
      SafeReachable (deleted (checked s keys).1 gone).1

/-- UTF-8 encoding of one scalar value, the byte sequence
`urlencoding::encode` walks over. -/
def utf8Bytes (c : Char) : List Nat :=
  let n := c.toNat
  if n < 0x80 then [n]
  else if n < 0x800 then
    [0xC0 ||| (n >>> 6), 0x80 ||| (n &&& 0x3F)]
  else if n < 0x10000 then
    [0xE0 ||| (n >>> 12), 0x80 ||| ((n >>> 6) &&& 0x3F), 0x80 ||| (n &&& 0x3F)]
  else
    [0xF0 ||| (n >>> 18), 0x80 ||| ((n >>> 12) &&& 0x3F),
     0x80 ||| ((n >>> 6) &&& 0x3F), 0x80 ||| (n &&& 0x3F)]

/-- Bytes `urlencoding` leaves as-is: ASCII alphanumerics and `-`, `.`,
`_`, `~`. -/
def isUnreservedByte (b : Nat) : Bool :=
  (65 ≤ b && b ≤ 90) || (97 ≤ b && b ≤ 122) || (48 ≤ b && b ≤ 57) ||
    b == 45 || b == 46 || b == 95 || b == 126

/-- Uppercase hexadecimal digit for a value below 16. -/
def hexUpper (n : Nat) : Char :=
  if n < 10 then Char.ofNat (48 + n) else Char.ofNat (55 + n)

/-- Percent-encoding of one byte. -/
def encodeByte (b : Nat) : String :=
  if isUnreservedByte b then String.singleton (Char.ofNat b)
  else String.singleton '%' ++ String.singleton (hexUpper (b / 16)) ++
    String.singleton (hexUpper (b % 16))

/-- Mirrors `urlencoding::encode`: percent-encode every UTF-8 byte that is
not unreserved. -/
def encode (s : String) : String :=
  ((s.data.flatMap utf8Bytes).map encodeByte).foldl (fun a b => a ++ b) ""

/-- The credential record of `main.rs::Access`. -/
structure Access where
  api_key : String
  api_secret : String
  access : String
  access_secret : String
deriving DecidableEq, Repr

/-- The fixed OAuth parameter set built at the top of
`twitter.rs::create_auth`; the nonce and timestamp are the per-call random
and clock values, passed explicitly here. -/
def auth_params (keys : Access) (nonce timestamp : String) :
    List (String × String) :=
  [("oauth_consumer_key", keys.api_key),
   ("oauth_nonce", nonce),
   ("oauth_signature_method", "HMAC-SHA1"),
   ("oauth_timestamp", timestamp),
   ("oauth_token", keys.access),
   ("oauth_version", "1.0")]

/-- Percent-encode each key and value of a parameter list. -/
def encode_pairs (ps : List (String × String)) : List (String × String) :=
  ps.map fun kv => (encode kv.1, encode kv.2)

/-- The comparison `create_auth` sorts with:
`sort_by(|a, b| a.0.cmp(&b.0))`, i.e. by encoded key only. Rust's
`sort_by` is stable, which `List.mergeSort` mirrors. -/
def key_le (a b : String × String) : Bool :=
  str_le a.1 b.1

/-- The encoded, key-sorted fixed auth parameters (`auth` in
`create_auth`). -/
def auth_sorted (keys : Access) (nonce timestamp : String) :
    List (String × String) :=
  (encode_pairs (auth_params keys nonce timestamp)).mergeSort key_le

/-- The merged, re-sorted parameter set used for the signature (`sig` in
`create_auth`): encoded auth parameters extended with the encoded request
parameters, sorted again by encoded key. -/
def sig_params (keys : Access) (nonce timestamp : String)
    (params : List (String × String)) : List (String × String) :=
  (auth_sorted keys nonce timestamp ++ encode_pairs params).mergeSort key_le

/-- The canonical parameter string of `create_auth`: `key=value` pairs of
the merged sorted set joined with `&`. -/
def param_string (keys : Access) (nonce timestamp : String)
    (params : List (String × String)) : String :=
  String.intercalate "&"
    ((sig_params keys nonce timestamp params).map fun kv => kv.1 ++ "=" ++ kv.2)

/-- Comparison the spec describes instead: encoded key, with ties between
equal encoded keys broken by encoded value. -/
def key_value_le (a b : String × String) : Bool :=
  if a.1 == b.1 then str_le a.2 b.2 else str_le a.1 b.1

/-- The merged parameter set sorted the way the spec's sentence describes
(key, then value on key ties); used only to compare against `sig_params`. -/
def sig_params_spec (keys : Access) (nonce timestamp : String)
    (params : List (String × String)) : List (String × String) :=
  (auth_sorted keys nonce timestamp ++ encode_pairs params).mergeSort key_value_le

/-- The chunking loop of `twitter.rs::lookup_tweets`: take up to 100 ids,
join them with `,`; if the joined string is empty, stop; otherwise send
one request whose `id` parameter is the joined string and continue with
the rest. The returned list is the `id` parameter of each request sent,
in send order. -/
def lookup_tweets : List String → List String
  | [] => []
  | i :: ids =>
    let joined := String.intercalate "," ((i :: ids).take 100)
    if joined = "" then []
    else joined :: lookup_tweets ((i :: ids).drop 100)
termination_by l => l.length
decreasing_by simp; omega

/-- Partition of a sequence into consecutive chunks of at most 100, in
input order, as the spec describes the batching. -/
def chunks100 : List String → List (List String)
  | [] => []
  | i :: ids => (i :: ids).take 100 :: chunks100 ((i :: ids).drop 100)
termination_by l => l.length
decreasing_by simp; omega

/-- An HTTP response as `rate_limit` inspects it: a status code and the
optional `x-rate-limit-reset` header value. -/
structure HttpResponse where
  status : Nat
  rate_limit_reset : Option String
deriving DecidableEq, Repr

/-- `reqwest::StatusCode::is_success`: `200 ..= 299`. -/
def isSuccess (status : Nat) : Bool := 200 ≤ status && status ≤ 299

/-- `reqwest::StatusCode::is_server_error`: `500 ..= 599`. -/
def isServerError (status : Nat) : Bool := 500 ≤ status && status ≤ 599

/-- `reqwest::StatusCode::is_client_error`: `400 ..= 499`. -/
def isClientError (status : Nat) : Bool := 400 ≤ status && status ≤ 499

/-- Numeric value of a decimal digit character. -/
def digitVal (c : Char) : Nat := c.toNat - 48

/-- Mirrors `str::parse::<u64>()`: an optional leading `+`, then at least
one ASCII digit, with the value required to fit in a `u64`. -/
def parse_u64 (s : String) : Option Nat :=
  let core : List Char := match s.data with
    | '+' :: rest => rest
    | l => l
  let v : Nat := core.foldl (fun n c => n * 10 + digitVal c) 0
  if core.length > 0 && core.all Char.isDigit && decide (v < 2 ^ 64) then
    some v
  else none

/-- The `secs as i64` cast: a `u64` reinterpreted two's-complement. -/
def u64_as_i64 (n : Nat) : Int :=
  if n < 2 ^ 63 then (n : Int) else (n : Int) - 2 ^ 64

/-- `i64::checked_sub`: the difference, or `none` when it leaves the
`i64` range. -/
def i64_checked_sub (a b : Int) : Option Int :=
  if -(2 ^ 63) ≤ a - b ∧ a - b < 2 ^ 63 then some (a - b) else none

/-- The `secs as u64` cast: an `i64` reinterpreted two's-complement. -/
def i64_as_u64 (i : Int) : Nat := (i % 2 ^ 64).toNat

/-- Seconds slept by the reset-header branch of `rate_limit` once the
header parsed to `reset`:
`(reset as i64).checked_sub(now).unwrap_or(60 * 15) as u64`. -/
def reset_sleep_secs (reset : Nat) (now : Int) : Nat :=
  i64_as_u64 ((i64_checked_sub (u64_as_i64 reset) now).getD (60 * 15))

/-- One scheduled attempt: the response the server gives to the next
send, and the unix time `OffsetDateTime::now_utc()` returns while that
response is handled. -/
structure Attempt where
  response : HttpResponse
  now : Int
deriving DecidableEq, Repr

/-- Outcome of a `rate_limit` run over a finite response script. -/
inductive RunResult where
  | ok (r : HttpResponse)
  | err
  | exhausted
deriving DecidableEq, Repr

/-- Observable trace of a `rate_limit` run: the request sent on each
attempt, the number of `on_limit` invocations, and the seconds of each
sleep, all in order. -/
structure RunTrace (α : Type) where
  sent : List α
  on_limit_calls : Nat
  sleeps : List Nat
deriving DecidableEq, Repr

/-- Mirrors `twitter.rs::rate_limit` run against a finite response
script. Each loop iteration clones the one `RequestBuilder` it was given
(`req`) and sends it; a 2xx response is returned; on 429 with a reset
header the header is parsed (a parse failure propagates as an error
before `on_limit` runs), `on_limit` is invoked and the computed reset
sleep happens; on 429 without the header `on_limit` is invoked and the
15-minute fallback sleep happens; a 5xx sleeps 60 seconds and retries;
any other 4xx is a terminal error; every remaining status (1xx, 3xx)
falls through all four tests and the loop re-sends at once. `exhausted`
means the script ran out before the loop returned. -/
def rate_limit {α : Type} (req : α) : List Attempt → RunResult × RunTrace α
  | [] => (.exhausted, ⟨[], 0, []⟩)
  | a :: rest =>
    if isSuccess a.response.status then (.ok a.response, ⟨[req], 0, []⟩)
    else if a.response.status == 429 then
      match a.response.rate_limit_reset with
      | some r =>
        match parse_u64 r with
        | none => (.err, ⟨[req], 0, []⟩)
        | some secs =>
          let r2 := rate_limit req rest
          (r2.1, ⟨req :: r2.2.sent, r2.2.on_limit_calls + 1,
            reset_sleep_secs secs a.now :: r2.2.sleeps⟩)
      | none =>
        let r2 := rate_limit req rest
        (r2.1, ⟨req :: r2.2.sent, r2.2.on_limit_calls + 1,
          (60 * 15) :: r2.2.sleeps⟩)
    else if isServerError a.response.status then
      let r2 := rate_limit req rest
      (r2.1, ⟨req :: r2.2.sent, r2.2.on_limit_calls, 60 :: r2.2.sleeps⟩)
    else if isClientError a.response.status then (.err, ⟨[req], 0, []⟩)
    else
      let r2 := rate_limit req rest
      (r2.1, ⟨req :: r2.2.sent, r2.2.on_limit_calls, r2.2.sleeps⟩)

/-! Helper lemmas about strings and chunking. -/

theorem intercalate_go_length_le (s : String) :
    ∀ (as : List String) (acc : String),
      acc.length ≤ (String.intercalate.go acc s as).length := by
  intro as
  induction as with
  | nil => intro acc; simp [String.intercalate.go]
  | cons a as ih =>
    intro acc
    have h1 : acc.length ≤ (acc ++ s ++ a).length := by
      simp [String.length_append]; omega
    calc acc.length ≤ (acc ++ s ++ a).length := h1
      _ ≤ (String.intercalate.go (acc ++ s ++ a) s as).length := ih _

theorem length_pos_of_ne_empty {x : String} (h : x ≠ "") : 0 < x.length := by
  cases x with
  | mk data =>
    cases data with
    | nil => exact absurd rfl h
    | cons c cs => simp [String.length]

theorem intercalate_ne_empty {l : List String} (hne : l ≠ [])
    (h : ∀ x ∈ l, x ≠ "") : String.intercalate "," l ≠ "" := by
  cases l with
  | nil => exact absurd rfl hne
  | cons x xs =>
    have hx : 0 < x.length := length_pos_of_ne_empty (h x (by simp))
    have hlen : x.length ≤ (String.intercalate "," (x :: xs)).length := by
      show x.length ≤ (String.intercalate.go x "," xs).length
      exact intercalate_go_length_le "," xs x
    intro hcontra
    rw [hcontra] at hlen
    have h0 : ("" : String).length = 0 := rfl
    omega

theorem chunks100_flatten (l : List String) : (chunks100 l).flatten = l := by
  induction l using chunks100.induct with
  | case1 => rw [chunks100]; rfl
  | case2 i ids ih =>
    rw [chunks100]
    simp only [List.flatten_cons, ih, List.take_append_drop]

theorem chunks100_mem {l : List String} {c : List String}
    (hc : c ∈ chunks100 l) : c ≠ [] ∧ c.length ≤ 100 := by
  induction l using chunks100.induct with
  | case1 => rw [chunks100] at hc; simp at hc
  | case2 i ids ih =>
    rw [chunks100] at hc
    rcases List.mem_cons.mp hc with h | h
    · subst h
      constructor
      · simp [List.take_eq_nil_iff]
      · simp [List.length_take]
    · exact ih h

theorem lookup_tweets_eq_chunks {ids : List String}
    (h : ∀ x ∈ ids, x ≠ "") :
    lookup_tweets ids = (chunks100 ids).map (String.intercalate ",") := by
  induction ids using lookup_tweets.induct with
  | case1 => rw [lookup_tweets, chunks100]; rfl
  | case2 i ids joined hj =>
    exact absurd hj (intercalate_ne_empty (by simp [List.take_eq_nil_iff])
      (fun x hx => h x (List.take_subset _ _ hx)))
  | case3 i ids joined hj ih =>
    rw [lookup_tweets, chunks100]
    rw [if_neg hj]
    simp only [List.map_cons]
    refine congrArg _ (ih (fun x hx => h x (List.drop_subset _ _ hx)))

/-! Helper lemmas about the store operations. -/

theorem set_checked_eq_self {t : MTweet} (h : t.checked = true) :
    ({ t with checked := true } : MTweet) = t := by
  cases t
  simp_all

theorem set_deleted_eq_self {t : MTweet} (h : t.deleted = true) :
    ({ t with deleted := true } : MTweet) = t := by
  cases t
  simp_all

theorem checked_fst_eq_map : ∀ (ids : List String) (s : List MTweet),
    (checked s ids).1 =
      s.map (fun t =>
        if ids.contains t.id_str then { t with checked := true } else t) := by
  intro ids
  induction ids with
  | nil => intro s; simp [checked]
  | cons id ids ih =>
    intro s
    have h1 : (checked s (id :: ids)).1 =
        (checked (update_set_checked s id) ids).1 := rfl
    rw [h1, ih (update_set_checked s id), update_set_checked, List.map_map]
    refine List.map_congr_left ?_
    intro t ht
    by_cases h2 : t.id_str = id
    · by_cases h3 : t.id_str ∈ ids <;>
        simp [Function.comp, List.contains_cons, h2, h3]
    · by_cases h3 : t.id_str ∈ ids <;>
        simp [Function.comp, List.contains_cons, h2, h3]

theorem deleted_fst_eq_map : ∀ (ids : List String) (s : List MTweet),
    (deleted s ids).1 =
      s.map (fun t =>
        if ids.contains t.id_str then { t with deleted := true } else t) := by
  intro ids
  induction ids with
  | nil => intro s; simp [deleted]
  | cons id ids ih =>
    intro s
    have h1 : (deleted s (id :: ids)).1 =
        (deleted (update_set_deleted s id) ids).1 := rfl
    rw [h1, ih (update_set_deleted s id), update_set_deleted, List.map_map]
    refine List.map_congr_left ?_
    intro t ht
    by_cases h2 : t.id_str = id
    · by_cases h3 : t.id_str ∈ ids <;>
        simp [Function.comp, List.contains_cons, h2, h3]
    · by_cases h3 : t.id_str ∈ ids <;>
        simp [Function.comp, List.contains_cons, h2, h3]

theorem find_count_update_set_checked (s : List MTweet) (id i : String) :
    find_count (update_set_checked s id) i = find_count s i := by
  unfold find_count update_set_checked
  rw [List.filter_map, List.length_map]
  congr 1
  refine List.filter_congr ?_
  intro t ht
  by_cases h : (t.id_str == id) = true <;> simp [Function.comp, h]

theorem find_count_update_set_deleted (s : List MTweet) (id i : String) :
    find_count (update_set_deleted s id) i = find_count s i := by
  unfold find_count update_set_deleted
  rw [List.filter_map, List.length_map]
  congr 1
  refine List.filter_congr ?_
  intro t ht
  by_cases h : (t.id_str == id) = true <;> simp [Function.comp, h]

theorem checked_snd_eq_sum : ∀ (ids : List String) (s : List MTweet),
    (checked s ids).2 = (ids.map (fun i => find_count s i)).sum := by
  intro ids
  induction ids with
  | nil => intro s; simp [checked]
  | cons id ids ih =>
    intro s
    have h1 : (checked s (id :: ids)).2 =
        find_count s id + (checked (update_set_checked s id) ids).2 := rfl
    rw [h1, ih (update_set_checked s id)]
    simp only [List.map_cons, List.sum_cons]
    congr 1
    refine congrArg _ (List.map_congr_left ?_)
    intro i hi
    exact find_count_update_set_checked s id i

theorem deleted_snd_eq_sum : ∀ (ids : List String) (s : List MTweet),
    (deleted s ids).2 = (ids.map (fun i => find_count s i)).sum := by
  intro ids
  induction ids with
  | nil => intro s; simp [deleted]
  | cons id ids ih =>
    intro s
    have h1 : (deleted s (id :: ids)).2 =
        find_count s id + (deleted (update_set_deleted s id) ids).2 := rfl
    rw [h1, ih (update_set_deleted s id)]
    simp only [List.map_cons, List.sum_cons]
    congr 1
    refine congrArg _ (List.map_congr_left ?_)
    intro i hi
    exact find_count_update_set_deleted s id i

theorem find_count_nodup {s : List MTweet}
    (hnd : (s.map (·.id_str)).Nodup) (i : String) :
    find_count s i = if s.any (fun t => t.id_str == i) then 1 else 0 := by
  induction s with
  | nil => simp [find_count]
  | cons t ts ih =>
    simp only [List.map_cons, List.nodup_cons] at hnd
    by_cases ht : (t.id_str == i) = true
    · have hti : t.id_str = i := by simpa using ht
      have hz : List.filter (fun u => u.id_str == i) ts = [] := by
        rw [List.filter_eq_nil_iff]
        intro u hu hui
        refine hnd.1 ?_
        have hu2 : u.id_str = i := by simpa using hui
        exact List.mem_map.mpr ⟨u, hu, by simp [hu2, hti]⟩
      simp [find_count, List.filter_cons, ht, hz]
    · have h1 : find_count (t :: ts) i = find_count ts i := by
        simp [find_count, List.filter_cons, ht]
      rw [h1, ih hnd.2]
      simp [List.any_cons, ht]

theorem sum_map_ite_eq_length_filter (ids : List String) (p : String → Bool) :
    (ids.map (fun i => if p i then 1 else 0)).sum = (ids.filter p).length := by
  induction ids with
  | nil => simp
  | cons i ids ih =>
    by_cases h : p i = true <;> simp [List.filter_cons, h, ih, Nat.add_comm]

theorem add_tweets_mem {t : MTweet} : ∀ (ts s : List MTweet),
    t ∈ (add_tweets s ts).1 → t ∈ s ∨ t ∈ ts := by
  intro ts
  induction ts with
  | nil =>
    intro s h
    rw [add_tweets] at h
    exact Or.inl h
  | cons u ts ih =>
    intro s h
    rw [add_tweets] at h
    by_cases hc : s.any (fun v => v.id_str == u.id_str) = true
    · simp only [hc, if_true] at h
      rcases ih s h with h1 | h1
      · exact Or.inl h1
      · exact Or.inr (List.mem_cons_of_mem _ h1)
    · simp only [hc, if_false] at h
      rcases ih (s ++ [u]) h with h1 | h1
      · rcases List.mem_append.mp h1 with h2 | h2
        · exact Or.inl h2
        · simp at h2
          exact Or.inr (by simp [h2])
      · exact Or.inr (List.mem_cons_of_mem _ h1)

theorem add_tweets_ids_mono {i : String} : ∀ (ts s : List MTweet),
    i ∈ s.map (·.id_str) → i ∈ (add_tweets s ts).1.map (·.id_str) := by
  intro ts
  induction ts with
  | nil =>
    intro s h
    rw [add_tweets]
    exact h
  | cons u ts ih =>
    intro s h
    rw [add_tweets]
    by_cases hc : s.any (fun v => v.id_str == u.id_str) = true
    · simp only [hc, if_true]
      exact ih s h
    · simp only [hc, if_false]
      exact ih (s ++ [u]) (by
        rw [List.map_append]
        exact List.mem_append.mpr (Or.inl h))

theorem add_tweets_ids_present {t : MTweet} : ∀ (ts s : List MTweet), t ∈ ts →
    t.id_str ∈ (add_tweets s ts).1.map (·.id_str) := by
  intro ts
  induction ts with
  | nil => intro s h; simp at h
  | cons u ts ih =>
    intro s h
    rw [add_tweets]
    by_cases hc : s.any (fun v => v.id_str == u.id_str) = true
    · simp only [hc, if_true]
      rcases List.mem_cons.mp h with h1 | h1
      · subst h1
        refine add_tweets_ids_mono ts s ?_
        simp only [List.any_eq_true, beq_iff_eq] at hc
        obtain ⟨v, hv, hveq⟩ := hc
        exact List.mem_map.mpr ⟨v, hv, hveq⟩
      · exact ih s h1
    · simp only [hc, if_false]
      rcases List.mem_cons.mp h with h1 | h1
      · subst h1
        refine add_tweets_ids_mono ts (s ++ [t]) ?_
        simp
      · exact ih (s ++ [u]) h1

theorem add_tweets_noop : ∀ (ts s : List MTweet),
    (∀ t ∈ ts, t.id_str ∈ s.map (·.id_str)) → add_tweets s ts = (s, 0) := by
  intro ts
  induction ts with
  | nil => intro s _; rw [add_tweets]
  | cons u ts ih =>
    intro s h
    rw [add_tweets]
    have hc : s.any (fun v => v.id_str == u.id_str) = true := by
      have hm := h u (by simp)
      simp only [List.any_eq_true, beq_iff_eq]
      obtain ⟨v, hv, hveq⟩ := List.mem_map.mp hm
      exact ⟨v, hv, hveq⟩
    rw [if_pos hc]
    exact ih s (fun t ht => h t (by simp [ht]))

/-! Helper lemmas about the two diesel queries. -/

theorem mem_select (s : List MTweet) (p : MTweet → Bool) (i : String) :
    i ∈ ((sort_by_id s).filter p).map (·.id_str) ↔
      ∃ t ∈ s, p t = true ∧ t.id_str = i := by
  simp only [sort_by_id, List.mem_map, List.mem_filter, List.mem_mergeSort]
  tauto

theorem charListLe_trans : ∀ (a b c : List Char),
    charListLe a b = true → charListLe b c = true → charListLe a c = true := by
  intro a
  induction a with
  | nil => intro b c _ _; rw [charListLe]
  | cons x xs ih =>
    intro b c hab hbc
    cases b with
    | nil => rw [charListLe] at hab; exact absurd hab (by simp)
    | cons y ys =>
      cases c with
      | nil => rw [charListLe] at hbc; exact absurd hbc (by simp)
      | cons z zs =>
        rw [charListLe] at hab hbc ⊢
        simp only [Bool.or_eq_true, Bool.and_eq_true, decide_eq_true_eq]
          at hab hbc ⊢
        rcases hab with h1 | ⟨h1, h2⟩ <;> rcases hbc with h3 | ⟨h3, h4⟩
        · exact Or.inl (by omega)
        · exact Or.inl (by omega)
        · exact Or.inl (by omega)
        · exact Or.inr ⟨by omega, ih ys zs h2 h4⟩

theorem charListLe_total : ∀ (a b : List Char),
    (charListLe a b || charListLe b a) = true := by
  intro a
  induction a with
  | nil => intro b; rw [charListLe]; simp
  | cons x xs ih =>
    intro b
    cases b with
    | nil => rw [charListLe]; simp [charListLe]
    | cons y ys =>
      rw [charListLe, charListLe]
      simp only [Bool.or_eq_true, Bool.and_eq_true, decide_eq_true_eq]
      rcases Nat.lt_trichotomy x.toNat y.toNat with h | h | h
      · exact Or.inl (Or.inl h)
      · rcases Bool.or_eq_true _ _ |>.mp (ih ys) with h2 | h2
        · exact Or.inl (Or.inr ⟨h, h2⟩)
        · exact Or.inr (Or.inr ⟨h.symm, h2⟩)
      · exact Or.inr (Or.inl h)

theorem charListLe_antisymm : ∀ (a b : List Char),
    charListLe a b = true → charListLe b a = true → a = b := by
  intro a
  induction a with
  | nil =>
    intro b _ hba
    cases b with
    | nil => rfl
    | cons y ys => rw [charListLe] at hba; exact absurd hba (by simp)
  | cons x xs ih =>
    intro b hab hba
    cases b with
    | nil => rw [charListLe] at hab; exact absurd hab (by simp)
    | cons y ys =>
      rw [charListLe] at hab hba
      simp only [Bool.or_eq_true, Bool.and_eq_true, decide_eq_true_eq]
        at hab hba
      have hxy : x.toNat = y.toNat := by
        rcases hab with h1 | ⟨h1, _⟩ <;> rcases hba with h2 | ⟨h2, _⟩ <;> omega
      have hx : x = y := Char.ext (UInt32.ext hxy)
      subst hx
      have h2 : charListLe xs ys = true := by
        rcases hab with h1 | ⟨_, h⟩
        · omega
        · exact h
      have h3 : charListLe ys xs = true := by
        rcases hba with h1 | ⟨_, h⟩
        · omega
        · exact h
      rw [ih ys h2 h3]

theorem str_le_trans (a b c : String) (hab : str_le a b = true)
    (hbc : str_le b c = true) : str_le a c = true :=
  charListLe_trans a.data b.data c.data hab hbc

theorem str_le_total (a b : String) : (str_le a b || str_le b a) = true :=
  charListLe_total a.data b.data

theorem str_le_antisymm (a b : String) (hab : str_le a b = true)
    (hba : str_le b a = true) : a = b := by
  cases a with
  | mk da =>
    cases b with
    | mk db =>
      exact congrArg String.mk (charListLe_antisymm da db hab hba)

theorem pairwise_select (s : List MTweet) (p : MTweet → Bool) :
    List.Pairwise (fun a b : String => str_le a b = true)
      (((sort_by_id s).filter p).map (·.id_str)) := by
  rw [List.pairwise_map]
  refine List.Pairwise.sublist (List.filter_sublist _) ?_
  exact List.sorted_mergeSort
    (fun a b c hab hbc => str_le_trans a.id_str b.id_str c.id_str hab hbc)
    (fun a b => str_le_total a.id_str b.id_str) s

/-! Helper lemmas for the checked-before-deleted invariant. -/

theorem checked_before_deleted_checked {s : List MTweet} (ids : List String)
    (h : checked_before_deleted s) :
    checked_before_deleted (checked s ids).1 := by
  rw [checked_fst_eq_map]
  intro t ht htd
  obtain ⟨u, hu, hut⟩ := List.mem_map.mp ht
  by_cases hc : ids.contains u.id_str = true
  · rw [if_pos hc] at hut
    subst hut
    rfl
  · rw [if_neg hc] at hut
    subst hut
    exact h u hu htd

theorem checked_mem_keys {s : List MTweet} {keys : List String} :
    ∀ t ∈ (checked s keys).1, t.id_str ∈ keys → t.checked = true := by
  rw [checked_fst_eq_map]
  intro t ht hk
  obtain ⟨u, hu, hut⟩ := List.mem_map.mp ht
  by_cases hc : keys.contains u.id_str = true
  · rw [if_pos hc] at hut
    subst hut
    rfl
  · rw [if_neg hc] at hut
    subst hut
    simp at hc
    exact absurd hk hc

theorem checked_before_deleted_deleted {s : List MTweet} {gone : List String}
    (h : checked_before_deleted s)
    (hch : ∀ t ∈ s, t.id_str ∈ gone → t.checked = true) :
    checked_before_deleted (deleted s gone).1 := by
  rw [deleted_fst_eq_map]
  intro t ht htd
  obtain ⟨u, hu, hut⟩ := List.mem_map.mp ht
  by_cases hc : gone.contains u.id_str = true
  · rw [if_pos hc] at hut
    subst hut
    exact hch u hu (by simpa using hc)
  · rw [if_neg hc] at hut
    subst hut
    exact h u hu htd

theorem checked_before_deleted_import {s : List MTweet}
    (args : List (String × Int × Int × Int × String))
    (h : checked_before_deleted s) :
    checked_before_deleted
      (add_tweets s (args.map fun a =>
        MTweet.new a.1 a.2.1 a.2.2.1 a.2.2.2.1 a.2.2.2.2)).1 := by
  intro t ht htd
  rcases add_tweets_mem _ _ ht with h1 | h1
  · exact h t h1 htd
  · obtain ⟨a, ha, hat⟩ := List.mem_map.mp h1
    rw [← hat] at htd
    simp [MTweet.new] at htd

theorem safe_reachable_inv : ∀ {s : List MTweet},
    SafeReachable s → checked_before_deleted s := by
  intro s h
  induction h with
  | init => intro t ht; simp at ht
  | importStep s args hr ih => exact checked_before_deleted_import args ih
  | lookupChunkStep s keys gone hsub hr ih =>
    refine checked_before_deleted_deleted
      (checked_before_deleted_checked keys ih) ?_
    intro t ht hg
    exact checked_mem_keys t ht (hsub _ hg)

/-! Helper lemmas for the mark-checked and mark-deleted counts. -/

theorem find_count_map_preserve (s : List MTweet) (f : MTweet → MTweet)
    (hf : ∀ t, (f t).id_str = t.id_str) (i : String) :
    find_count (s.map f) i = find_count s i := by
  unfold find_count
  rw [List.filter_map, List.length_map]
  congr 1
  refine List.filter_congr ?_
  intro t ht
  simp [Function.comp, hf t]

/-! Order facts for the signature parameter comparisons. -/

theorem key_le_trans (a b c : String × String) (hab : key_le a b = true)
    (hbc : key_le b c = true) : key_le a c = true :=
  str_le_trans a.1 b.1 c.1 hab hbc

theorem key_le_total (a b : String × String) :
    (key_le a b || key_le b a) = true :=
  str_le_total a.1 b.1

theorem key_value_le_trans (a b c : String × String)
    (hab : key_value_le a b = true) (hbc : key_value_le b c = true) :
    key_value_le a c = true := by
  unfold key_value_le at hab hbc ⊢
  by_cases e1 : a.1 = b.1
  · by_cases e2 : b.1 = c.1
    · rw [if_pos (by simp [e1])] at hab
      rw [if_pos (by simp [e2])] at hbc
      rw [if_pos (by simp [e1, e2]), e1, e2] at *
      exact str_le_trans _ _ _ hab hbc
    · rw [if_pos (by simp [e1])] at hab
      rw [if_neg (by simp [e2])] at hbc
      rw [if_neg (by simp [e1]; exact fun h => e2 (e1 ▸ h)), e1]
      exact hbc
  · by_cases e2 : b.1 = c.1
    · rw [if_neg (by simp [e1])] at hab
      rw [if_pos (by simp [e2])] at hbc
      rw [if_neg (by simp; exact fun h => e1 (e2 ▸ h)), ← e2]
      exact hab
    · rw [if_neg (by simp [e1])] at hab
      rw [if_neg (by simp [e2])] at hbc
      by_cases e3 : a.1 = c.1
      · exact absurd (str_le_antisymm a.1 b.1 hab (e3 ▸ hbc)) e1
      · rw [if_neg (by simp [e3])]
        exact str_le_trans _ _ _ hab hbc

theorem key_value_le_total (a b : String × String) :
    (key_value_le a b || key_value_le b a) = true := by
  unfold key_value_le
  by_cases e : a.1 = b.1
  · rw [if_pos (by simp [e]), if_pos (by simp [e])]
    exact str_le_total a.2 b.2
  · rw [if_neg (by simp [e]), if_neg (by simp; exact fun h => e h.symm)]
    exact str_le_total a.1 b.1

/-! Claim theorems. -/

/-- C1, counterexample. The claim says every reachable store state
satisfies `deleted = true → checked = true`. It is false: import one
fresh tweet (id "1", never looked up, so `checked = false`), then run the
Delete-arm per-item callback on it — `main.rs` calls `db::deleted` for
the processed id without ever marking it checked — and the resulting
reachable state holds a record with `deleted = true` and
`checked = false`. -/
theorem c1_counterexample :
    Reachable (deleted (add_tweets []
        ([("1", 0, 0, 100, "0")].map fun a =>
          MTweet.new a.1 a.2.1 a.2.2.1 a.2.2.2.1 a.2.2.2.2)).1 ["1"]).1 ∧
    ¬ checked_before_deleted (deleted (add_tweets []
        ([("1", 0, 0, 100, "0")].map fun a =>
          MTweet.new a.1 a.2.1 a.2.2.1 a.2.2.2.1 a.2.2.2.2)).1 ["1"]).1 := by
  constructor
  · exact Reachable.deleteResultStep _ "1"
      (Reachable.importStep [] [("1", 0, 0, 100, "0")] Reachable.init)
  · decide

/-- C1, amended. Every store state reachable through import and the
Import-arm lookup callback (mark a batch checked, then mark a subset of
that batch deleted, in one transaction) satisfies
`deleted = true → checked = true`; the Delete-arm per-item callback does
not preserve the invariant, because it marks a record deleted without
marking it checked. -/
theorem c1_amended {s : List MTweet} (h : SafeReachable s) :
    checked_before_deleted s :=
  safe_reachable_inv h

/-- C1, witness: the amended invariant evaluated on a concrete reachable
state (import one tweet, then run the lookup callback that checks it and
marks it gone). -/
theorem c1_witness :
    checked_before_deleted (deleted (checked (add_tweets []
        ([("1", 0, 0, 100, "0")].map fun a =>
          MTweet.new a.1 a.2.1 a.2.2.1 a.2.2.2.1 a.2.2.2.2)).1 ["1"]).1 ["1"]).1 :=
  c1_amended (SafeReachable.lookupChunkStep _ ["1"] ["1"] (fun _ hi => hi)
    (SafeReachable.importStep [] [("1", 0, 0, 100, "0")] SafeReachable.init))

/-- C9. Importing the same record list twice adds nothing the second
time: the second `add_tweets` call returns the unchanged store and an
inserted-count of zero, so the store record count equals the count after
one import. Holds for every store and record list, duplicates included. -/
theorem c9_import_idempotent (s ts : List MTweet) :
    add_tweets (add_tweets s ts).1 ts = ((add_tweets s ts).1, 0) ∧
    count_tweets (add_tweets (add_tweets s ts).1 ts).1 =
      count_tweets (add_tweets s ts).1 := by
  have h := add_tweets_noop ts (add_tweets s ts).1
    (fun t ht => add_tweets_ids_present ts s ht)
  exact ⟨h, by rw [h]⟩

/-- C4, counterexample. The claim says the Import-arm selection returns
exactly the ids of records with `checked = false`, with no further
restriction. False: the query filters with `existing()`, which also
requires `deleted = false`, so a store holding one record with
`checked = false` and `deleted = true` yields an empty selection even
though the record's id satisfies the claimed condition. -/
theorem c4_counterexample :
    unchecked_tweets [⟨"1", 0, 0, 100, true, false, "0"⟩] = [] ∧
    (([⟨"1", 0, 0, 100, true, false, "0"⟩] : List MTweet).filter
      (fun t => t.checked == false)).map (·.id_str) = ["1"] := by
  constructor
  · rw [unchecked_tweets, show sort_by_id [⟨"1", 0, 0, 100, true, false, "0"⟩] =
        [⟨"1", 0, 0, 100, true, false, "0"⟩] from by simp [sort_by_id]]
    decide
  · decide

/-- C4, amended. For every store state, the Import-arm selection
(`unchecked_tweets`) returns precisely the ids of records with
`checked = false` AND `deleted = false` (the `existing()` filter), in
ascending id order. -/
theorem c4_amended (s : List MTweet) :
    List.Pairwise (fun a b : String => str_le a b = true) (unchecked_tweets s) ∧
    ∀ i : String, (i ∈ unchecked_tweets s ↔
      ∃ t ∈ s, t.checked = false ∧ t.deleted = false ∧ t.id_str = i) := by
  constructor
  · exact pairwise_select s existing
  · intro i
    unfold unchecked_tweets
    rw [mem_select]
    constructor
    · rintro ⟨t, ht, hp, hi⟩
      simp only [existing, Bool.and_eq_true, beq_iff_eq] at hp
      exact ⟨t, ht, hp.2, hp.1, hi⟩
    · rintro ⟨t, ht, hc, hd, hi⟩
      exact ⟨t, ht, by simp [existing, hc, hd], hi⟩

/-- C6, counterexample. The claim's concrete instance says that with
`created_at` values 100, 200 and 300, cutoff 250, no exclusions and zero
thresholds (all engagement counts zero), exactly the record with
`created_at = 200` is selected. False: `created_at = 100` also satisfies
`created_at < 250`, so the selection contains both ids. -/
theorem c6_counterexample :
    to_process [⟨"1", 0, 0, 100, false, false, "0"⟩,
        ⟨"2", 0, 0, 200, false, false, "0"⟩,
        ⟨"3", 0, 0, 300, false, false, "0"⟩] 250 [] 0 0 = ["1", "2"] ∧
    (["1", "2"] : List String) ≠ ["2"] := by
  constructor
  · rw [to_process, show sort_by_id [⟨"1", 0, 0, 100, false, false, "0"⟩,
        ⟨"2", 0, 0, 200, false, false, "0"⟩,
        ⟨"3", 0, 0, 300, false, false, "0"⟩] =
        [⟨"1", 0, 0, 100, false, false, "0"⟩,
        ⟨"2", 0, 0, 200, false, false, "0"⟩,
        ⟨"3", 0, 0, 300, false, false, "0"⟩] from by
      rw [sort_by_id]
      exact List.mergeSort_of_sorted (by decide)]
    decide
  · decide

/-- C6, amended. The Delete-arm selection (`to_process`) returns, for
every store state and parameters, exactly the ids of records with
`deleted = false`, `created_at < cutoff`, id not excluded,
`likes ≤ max_likes` and `retweets ≤ max_retweets`, in ascending id
order; on the claim's concrete instance the records with
`created_at = 100` and `created_at = 200` are both selected. -/
theorem c6_amended :
    (∀ (s : List MTweet) (off : Int) (exclude : List String)
        (unless_likes unless_retweets : Int),
      List.Pairwise (fun a b : String => str_le a b = true)
        (to_process s off exclude unless_likes unless_retweets) ∧
      ∀ i : String,
        (i ∈ to_process s off exclude unless_likes unless_retweets ↔
          ∃ t ∈ s, t.deleted = false ∧ t.created_at < off ∧
            t.id_str ∉ exclude ∧ t.likes ≤ unless_likes ∧
            t.retweets ≤ unless_retweets ∧ t.id_str = i)) ∧
    to_process [⟨"1", 0, 0, 100, false, false, "0"⟩,
        ⟨"2", 0, 0, 200, false, false, "0"⟩,
        ⟨"3", 0, 0, 300, false, false, "0"⟩] 250 [] 0 0 = ["1", "2"] := by
  constructor
  · intro s off exclude ul ur
    have hpred : ∀ t : MTweet,
        ((created_before off t && (t.deleted == false) &&
          !(exclude.contains t.id_str) && decide (t.likes ≤ ul) &&
          decide (t.retweets ≤ ur)) = true) ↔
        (t.deleted = false ∧ t.created_at < off ∧ t.id_str ∉ exclude ∧
          t.likes ≤ ul ∧ t.retweets ≤ ur) := by
      intro t
      simp [created_before]
      tauto
    constructor
    · exact pairwise_select s _
    · intro i
      unfold to_process
      rw [mem_select]
      constructor
      · rintro ⟨t, ht, hp, hi⟩
        obtain ⟨h1, h2, h3, h4, h5⟩ := (hpred t).mp hp
        exact ⟨t, ht, h1, h2, h3, h4, h5, hi⟩
      · rintro ⟨t, ht, h1, h2, h3, h4, h5, hi⟩
        exact ⟨t, ht, (hpred t).mpr ⟨h1, h2, h3, h4, h5⟩, hi⟩
  · rw [to_process, show sort_by_id [⟨"1", 0, 0, 100, false, false, "0"⟩,
        ⟨"2", 0, 0, 200, false, false, "0"⟩,
        ⟨"3", 0, 0, 300, false, false, "0"⟩] =
        [⟨"1", 0, 0, 100, false, false, "0"⟩,
        ⟨"2", 0, 0, 200, false, false, "0"⟩,
        ⟨"3", 0, 0, 300, false, false, "0"⟩] from by
      rw [sort_by_id]
      exact List.mergeSort_of_sorted (by decide)]
    decide

theorem chunks100_eq_cons {l : List String} (h : l ≠ []) :
    chunks100 l = l.take 100 :: chunks100 (l.drop 100) := by
  cases l with
  | nil => exact absurd rfl h
  | cons i ids => rw [chunks100]

theorem replicate_ne_nil_of_pos {α : Type} (a : α) {n : Nat} (h : 0 < n) :
    List.replicate n a ≠ [] := by
  intro hc
  have := List.length_replicate n a
  rw [hc] at this
  simp at this
  omega

theorem chunks100_replicate250 :
    chunks100 (List.replicate 250 "1") =
      [List.replicate 100 "1", List.replicate 100 "1",
        List.replicate 50 "1"] := by
  rw [chunks100_eq_cons (replicate_ne_nil_of_pos _ (by norm_num)),
    List.take_replicate, List.drop_replicate]
  norm_num
  rw [chunks100_eq_cons (replicate_ne_nil_of_pos _ (by norm_num)),
    List.take_replicate, List.drop_replicate]
  norm_num
  rw [chunks100_eq_cons (replicate_ne_nil_of_pos _ (by norm_num)),
    List.take_replicate, List.drop_replicate]
  norm_num
  rw [chunks100]

/-- C5, counterexample. The claim says one request is sent per non-empty
chunk, for every input id sequence. False on the sequence `[""]`: its
only chunk is `[""]`, a non-empty chunk, but the loop joins it to the
empty string, takes the empty-string exit, and sends no request at
all. -/
theorem c5_counterexample :
    lookup_tweets [""] = [] ∧ chunks100 [""] = [[""]] ∧
    ([""] : List String) ≠ [] := by
  refine ⟨?_, ?_, by decide⟩
  · rw [lookup_tweets]
    rw [if_pos (by decide)]
  · rw [chunks100]
    rw [show List.take 100 [""] = [""] from by decide,
      show List.drop 100 ([""] : List String) = [] from by decide, chunks100]

/-- C5, amended. For every id sequence whose ids are non-empty strings
(every real tweet id is), the lookup loop sends exactly one request per
chunk of the consecutive-chunks-of-100 partition, in input order, each
request carrying the chunk's ids joined by commas; every chunk is
non-empty, has at most 100 ids, and the chunks concatenate back to the
input, so the loop stops exactly when the sequence is exhausted. In
particular 250 ids produce exactly 3 requests with chunk sizes 100, 100
and 50. -/
theorem c5_amended :
    (∀ ids : List String, (∀ x ∈ ids, x ≠ "") →
      lookup_tweets ids = (chunks100 ids).map (String.intercalate ",") ∧
      (chunks100 ids).flatten = ids ∧
      ∀ c ∈ chunks100 ids, c ≠ [] ∧ c.length ≤ 100) ∧
    (chunks100 (List.replicate 250 "1")).map List.length =
      [100, 100, 50] ∧
    (lookup_tweets (List.replicate 250 "1")).length = 3 := by
  refine ⟨?_, ?_, ?_⟩
  · intro ids h
    exact ⟨lookup_tweets_eq_chunks h, chunks100_flatten ids,
      fun c hc => chunks100_mem hc⟩
  · rw [chunks100_replicate250]
    simp
  · rw [lookup_tweets_eq_chunks (fun x hx => by
      rw [List.eq_of_mem_replicate hx]
      decide)]
    rw [List.length_map, chunks100_replicate250]
    rfl

/-- C5, witness: the amended per-chunk description evaluated on a small
concrete input with non-empty ids. -/
theorem c5_witness :
    lookup_tweets ["a", "b"] =
      (chunks100 ["a", "b"]).map (String.intercalate ",") :=
  (c5_amended.1 ["a", "b"] (by decide)).1

/-- C2, counterexample. The claim says every attempt of a rate-limited
send carries a freshly regenerated signature with a fresh nonce and
timestamp. False: `lookup_tweets` calls `create_auth` once when it
builds the `RequestBuilder`, and `rate_limit` retries by cloning that
same builder, Authorization header included. On a 429 (reset header 5
seconds in the future) followed by a success, the two attempts send the
very same request value — here a request carrying the one signature
computed from the original nonce — with exactly one `on_limit` call and
one 5-second sleep; no re-signing happens between the attempts. -/
theorem c2_counterexample :
    rate_limit "Oauth-header-signed-with-nonce0"
        [⟨⟨429, some "105"⟩, 100⟩, ⟨⟨200, none⟩, 105⟩] =
      (.ok ⟨200, none⟩,
        ⟨["Oauth-header-signed-with-nonce0",
          "Oauth-header-signed-with-nonce0"], 1, [5]⟩) := by
  decide

/-- C2, amended. The request and its signature are built once per
logical request; each attempt, the retry after a 429 included, re-sends
a clone of that identical request. A single 429 with a parseable reset
header followed by a success yields exactly one `on_limit` invocation,
one sleep of the computed reset duration, and one retry that sends the
same request value again; the success response is returned. -/
theorem c2_amended {α : Type} (req : α) (reset : String) (k : Nat)
    (now : Int) (resp2 : HttpResponse) (now2 : Int)
    (hparse : parse_u64 reset = some k)
    (hok : isSuccess resp2.status = true) :
    rate_limit req [⟨⟨429, some reset⟩, now⟩, ⟨resp2, now2⟩] =
      (.ok resp2, ⟨[req, req], 1, [reset_sleep_secs k now]⟩) := by
  have hinner : rate_limit req [({ response := resp2, now := now2 } : Attempt)] =
      (.ok resp2, ⟨[req], 0, []⟩) := by
    rw [rate_limit]
    rw [if_pos hok]
  rw [rate_limit]
  simp only [isSuccess, hparse, hinner]
  norm_num

/-- C2, witness: the amended retry behaviour evaluated on a concrete
429-then-success script. -/
theorem c2_witness :
    rate_limit (0 : Nat) [⟨⟨429, some "105"⟩, 100⟩, ⟨⟨200, none⟩, 105⟩] =
      (.ok ⟨200, none⟩, ⟨[0, 0], 1, [reset_sleep_secs 105 100]⟩) :=
  c2_amended 0 "105" 105 100 ⟨200, none⟩ 105 (by decide) (by decide)

/-- C3, code bug. The claim (and the code's own comment, `Default to 15
minutes`) says the sleep falls back to 15 minutes when the reset time is
in the past or the header fails to parse. Actually: for a reset time in
the past, `checked_sub` succeeds with a negative `i64`, and the `as u64`
cast wraps it to an enormous sleep — with reset 100 and current time 200
the process sleeps `2^64 - 100` seconds instead of 900; and a header
that fails to parse propagates a terminal error instead of sleeping.
Only the absent-header case really sleeps the 15-minute fallback, and a
parseable future reset time sleeps the seconds remaining. -/
theorem c3_sleep_bug :
    reset_sleep_secs 100 200 = 18446744073709551516 ∧
    reset_sleep_secs 100 200 ≠ 60 * 15 ∧
    (rate_limit (0 : Nat) [⟨⟨429, some "not-a-number"⟩, 0⟩]).1 =
      RunResult.err ∧
    (rate_limit (0 : Nat) [⟨⟨429, some "not-a-number"⟩, 0⟩]).2.sleeps = [] ∧
    (rate_limit (0 : Nat) [⟨⟨429, none⟩, 0⟩]).2.sleeps = [60 * 15] ∧
    reset_sleep_secs 105 100 = 5 := by
  decide

/-- C10. When every response in the script is a redirect-class (3xx)
status, the send loop never returns and never sleeps: a 3xx matches
neither the success, 429, server-error, nor client-error branch, so each
iteration immediately re-sends the request. Over any finite schedule the
run is exhausted with one send per response, zero `on_limit` calls and
zero sleeps. -/
theorem c10_redirect_loop {α : Type} (req : α) :
    ∀ script : List Attempt,
      (∀ a ∈ script, 300 ≤ a.response.status ∧ a.response.status ≤ 399) →
      rate_limit req script =
        (.exhausted, ⟨script.map (fun _ => req), 0, []⟩) := by
  intro script
  induction script with
  | nil => intro _; rw [rate_limit]; rfl
  | cons a rest ih =>
    intro h
    obtain ⟨h1, h2⟩ := h a (by simp)
    have hs : isSuccess a.response.status = false := by
      simp only [isSuccess, Bool.and_eq_false_iff, decide_eq_false_iff_not]
      omega
    have h429 : (a.response.status == 429) = false := by
      simp only [beq_eq_false_iff_ne, ne_eq]
      omega
    have hsrv : isServerError a.response.status = false := by
      simp only [isServerError, Bool.and_eq_false_iff,
        decide_eq_false_iff_not]
      omega
    have hcli : isClientError a.response.status = false := by
      simp only [isClientError, Bool.and_eq_false_iff,
        decide_eq_false_iff_not]
      omega
    rw [rate_limit]
    rw [if_neg (by rw [hs]; exact Bool.false_ne_true)]
    rw [if_neg (by rw [h429]; exact Bool.false_ne_true)]
    rw [if_neg (by rw [hsrv]; exact Bool.false_ne_true)]
    rw [if_neg (by rw [hcli]; exact Bool.false_ne_true)]
    rw [ih (fun b hb => h b (by simp [hb]))]
    simp

/-- C10, witness: the immediate-resend loop evaluated on a concrete
two-response redirect script. -/
theorem c10_witness :
    rate_limit (0 : Nat) [⟨⟨301, none⟩, 0⟩, ⟨⟨302, none⟩, 1⟩] =
      (.exhausted, ⟨[0, 0], 0, []⟩) :=
  c10_redirect_loop 0 [⟨⟨301, none⟩, 0⟩, ⟨⟨302, none⟩, 1⟩] (by decide)

/-- C7. Marking is idempotent per id and per call, yet counts rows
touched rather than rows changed: (a) if every store row named by the
ids is already checked (resp. deleted), the call leaves the store
unchanged; (b) with unique primary keys the returned count is the number
of supplied ids present in the store, marked-already or not; (c)
repeating a whole `checked` or `deleted` call reproduces the same store
and the same count. -/
theorem c7_mark_idempotent (s : List MTweet) (ids : List String) :
    ((∀ t ∈ s, t.id_str ∈ ids → t.checked = true) →
      (checked s ids).1 = s) ∧
    ((∀ t ∈ s, t.id_str ∈ ids → t.deleted = true) →
      (deleted s ids).1 = s) ∧
    ((s.map (·.id_str)).Nodup →
      (checked s ids).2 =
        (ids.filter (fun i => s.any (fun t => t.id_str == i))).length ∧
      (deleted s ids).2 =
        (ids.filter (fun i => s.any (fun t => t.id_str == i))).length) ∧
    checked (checked s ids).1 ids = checked s ids ∧
    deleted (deleted s ids).1 ids = deleted s ids := by
  refine ⟨?_, ?_, ?_, ?_, ?_⟩
  · intro h
    rw [checked_fst_eq_map]
    have hcong : ∀ t ∈ s,
        (if ids.contains t.id_str then { t with checked := true } else t)
          = t := by
      intro t ht
      by_cases hc : ids.contains t.id_str = true
      · rw [if_pos hc]
        exact set_checked_eq_self (h t ht (by simpa using hc))
      · rw [if_neg hc]
    rw [List.map_congr_left hcong]
    simp
  · intro h
    rw [deleted_fst_eq_map]
    have hcong : ∀ t ∈ s,
        (if ids.contains t.id_str then { t with deleted := true } else t)
          = t := by
      intro t ht
      by_cases hc : ids.contains t.id_str = true
      · rw [if_pos hc]
        exact set_deleted_eq_self (h t ht (by simpa using hc))
      · rw [if_neg hc]
    rw [List.map_congr_left hcong]
    simp
  · intro hnd
    constructor
    · rw [checked_snd_eq_sum]
      rw [List.map_congr_left (fun i _ => find_count_nodup hnd i)]
      exact sum_map_ite_eq_length_filter ids _
    · rw [deleted_snd_eq_sum]
      rw [List.map_congr_left (fun i _ => find_count_nodup hnd i)]
      exact sum_map_ite_eq_length_filter ids _
  · have hstate : (checked (checked s ids).1 ids).1 = (checked s ids).1 := by
      rw [checked_fst_eq_map, checked_fst_eq_map ids s, List.map_map]
      refine List.map_congr_left ?_
      intro t ht
      by_cases hc : t.id_str ∈ ids
      · simp [Function.comp, hc]
      · simp [Function.comp, hc]
    have hcount : (checked (checked s ids).1 ids).2 = (checked s ids).2 := by
      rw [checked_snd_eq_sum, checked_snd_eq_sum ids s]
      refine congrArg _ (List.map_congr_left ?_)
      intro i _
      rw [checked_fst_eq_map]
      exact find_count_map_preserve s _ (fun t => by
        by_cases hc : ids.contains t.id_str = true
        · rw [if_pos hc]
        · rw [if_neg hc]) i
    exact Prod.ext hstate hcount
  · have hstate : (deleted (deleted s ids).1 ids).1 = (deleted s ids).1 := by
      rw [deleted_fst_eq_map, deleted_fst_eq_map ids s, List.map_map]
      refine List.map_congr_left ?_
      intro t ht
      by_cases hc : t.id_str ∈ ids
      · simp [Function.comp, hc]
      · simp [Function.comp, hc]
    have hcount : (deleted (deleted s ids).1 ids).2 = (deleted s ids).2 := by
      rw [deleted_snd_eq_sum, deleted_snd_eq_sum ids s]
      refine congrArg _ (List.map_congr_left ?_)
      intro i _
      rw [deleted_fst_eq_map]
      exact find_count_map_preserve s _ (fun t => by
        by_cases hc : ids.contains t.id_str = true
        · rw [if_pos hc]
        · rw [if_neg hc]) i
    exact Prod.ext hstate hcount

/-- C7, witness: an already-checked record stays untouched while the
returned count still includes it ("1" present, "2" absent, count 1). -/
theorem c7_witness :
    (checked [⟨"1", 0, 0, 100, false, true, "0"⟩] ["1", "2"]).1 =
      [⟨"1", 0, 0, 100, false, true, "0"⟩] ∧
    (checked [⟨"1", 0, 0, 100, false, true, "0"⟩] ["1", "2"]).2 =
      (["1", "2"].filter (fun i =>
        [(⟨"1", 0, 0, 100, false, true, "0"⟩ : MTweet)].any
          (fun t => t.id_str == i))).length :=
  ⟨(c7_mark_idempotent _ _).1 (by decide),
   ((c7_mark_idempotent _ _).2.2.1 (by decide)).1⟩

/-- C8, counterexample. The claim says the merged parameter set is
sorted by encoded key with ties between equal encoded keys broken by
encoded value, for every parameter list. False: `create_auth` sorts with
`sort_by(|a, b| a.0.cmp(&b.0))`, a stable sort comparing keys only, so
duplicate keys keep their merged order. With request parameters
`[("z", "z"), ("z", "a")]` the code's sorted set keeps value "z" before
value "a", while the key-then-value order the spec describes would swap
them. -/
theorem c8_counterexample :
    sig_params ⟨"k", "ks", "t", "ts"⟩ "n" "1" [("z", "z"), ("z", "a")] ≠
      sig_params_spec ⟨"k", "ks", "t", "ts"⟩ "n" "1"
        [("z", "z"), ("z", "a")] := by
  have hauth : auth_sorted ⟨"k", "ks", "t", "ts"⟩ "n" "1" =
      encode_pairs (auth_params ⟨"k", "ks", "t", "ts"⟩ "n" "1") := by
    rw [auth_sorted]
    exact List.mergeSort_of_sorted (by decide)
  have hsig : sig_params ⟨"k", "ks", "t", "ts"⟩ "n" "1"
      [("z", "z"), ("z", "a")] =
      encode_pairs (auth_params ⟨"k", "ks", "t", "ts"⟩ "n" "1") ++
        encode_pairs [("z", "z"), ("z", "a")] := by
    rw [sig_params, hauth]
    exact List.mergeSort_of_sorted (by decide)
  intro heq
  have hsorted : List.Pairwise (fun a b => key_value_le a b = true)
      (sig_params_spec ⟨"k", "ks", "t", "ts"⟩ "n" "1"
        [("z", "z"), ("z", "a")]) :=
    List.sorted_mergeSort key_value_le_trans key_value_le_total _
  rw [← heq, hsig] at hsorted
  exact absurd hsorted (by decide)

/-- C8, amended. The merged set of percent-encoded auth and request
parameters is sorted by encoded key only, with Rust's stable `sort_by`,
so ties between equal encoded keys keep their merged order (auth
parameters first, request parameters in caller order) rather than being
broken by encoded value; the result is a permutation of the encoded
merged input, nondecreasing in the encoded keys. On the duplicate-key
fixture the two `z`-keyed pairs stay in caller order, value "z" before
value "a". -/
theorem c8_amended :
    (∀ (keys : Access) (nonce timestamp : String)
        (params : List (String × String)),
      List.Pairwise (fun a b : String × String => str_le a.1 b.1 = true)
        (sig_params keys nonce timestamp params) ∧
      (sig_params keys nonce timestamp params).Perm
        (encode_pairs (auth_params keys nonce timestamp) ++
          encode_pairs params)) ∧
    sig_params ⟨"k", "ks", "t", "ts"⟩ "n" "1" [("z", "z"), ("z", "a")] =
      encode_pairs (auth_params ⟨"k", "ks", "t", "ts"⟩ "n" "1") ++
        [("z", "z"), ("z", "a")] := by
  constructor
  · intro keys nonce ts params
    constructor
    · exact (List.sorted_mergeSort key_le_trans key_le_total
        (auth_sorted keys nonce ts ++ encode_pairs params)).imp
        (fun h => h)
    · refine (List.mergeSort_perm _ _).trans ?_
      exact List.Perm.append (List.mergeSort_perm _ _) (List.Perm.refl _)
  · have hauth : auth_sorted ⟨"k", "ks", "t", "ts"⟩ "n" "1" =
        encode_pairs (auth_params ⟨"k", "ks", "t", "ts"⟩ "n" "1") := by
      rw [auth_sorted]
      exact List.mergeSort_of_sorted (by decide)
    rw [sig_params, hauth,
      show encode_pairs [("z", "z"), ("z", "a")] =
        [("z", "z"), ("z", "a")] from by decide]
    exact List.mergeSort_of_sorted (by decide)
